import Mathlib

/-!
Verification of the feature-preparation and model-selection workflow of the
`Learning-Spark/Python/Chapter10` notebooks (`10-6 Decision Trees.py` and
`10-7 Hyperparameter Tuning.py`).

The notebooks are orchestration over a distributed ML framework.  The column
classification (`categoricalCols`, `indexOutputCols`, `numericCols`,
`assemblerInputs`) is literal code in both notebooks and is embedded directly.
The framework components the notebooks configure (string indexer with the
`skip` policy, vector assembler, cross validator, regression evaluator, tree
models) are not part of the repository's source; they are modelled from the
specification, each such definition carrying a doc comment saying so.
-/

namespace DatabricksNotebooks

/-- A dataframe schema as reported by `df.dtypes`: an ordered list of
`(field, dataType)` pairs, the types given as strings such as `"string"`
and `"double"`. -/
abbrev Schema := List (String × String)

/-- `categoricalCols = [field for (field, dataType) in trainDF.dtypes if dataType == "string"]`
(identical in both notebooks). -/
def categoricalCols (dtypes : Schema) : List String :=
  (dtypes.filter (fun p => p.2 == "string")).map Prod.fst

/-- `indexOutputCols = [x + "Index" for x in categoricalCols]`. -/
def indexOutputCols (dtypes : Schema) : List String :=
  (categoricalCols dtypes).map (fun x => x ++ "Index")

/-- `numericCols = [field for (field, dataType) in trainDF.dtypes
if ((dataType == "double") & (field != "price"))]`. -/
def numericCols (dtypes : Schema) : List String :=
  (dtypes.filter (fun p => p.2 == "double" && p.1 != "price")).map Prod.fst

/-- `assemblerInputs = indexOutputCols + numericCols`. -/
def assemblerInputs (dtypes : Schema) : List String :=
  indexOutputCols dtypes ++ numericCols dtypes

/-- Modelled from the spec: the Feature Assembler (`VectorAssembler`, not in
this repository's source) concatenates the named input columns' values, in
the given order, into one feature vector per row.  A row is a total map from
column name to numeric value. -/
def featureVector (inputs : List String) (row : String → ℚ) : List ℚ :=
  inputs.map row

/-- Membership characterisation of `categoricalCols`. -/
theorem mem_categoricalCols (dtypes : Schema) (f : String) :
    f ∈ categoricalCols dtypes ↔ ∃ ty, (f, ty) ∈ dtypes ∧ ty = "string" := by
  simp only [categoricalCols, List.mem_map, List.mem_filter]
  constructor
  · rintro ⟨⟨a, b⟩, ⟨hmem, hb⟩, rfl⟩
    exact ⟨b, hmem, by simpa using hb⟩
  · rintro ⟨ty, hmem, rfl⟩
    exact ⟨(f, "string"), ⟨hmem, by simp⟩, rfl⟩

/-- Membership characterisation of `numericCols`. -/
theorem mem_numericCols (dtypes : Schema) (f : String) :
    f ∈ numericCols dtypes ↔ ∃ ty, (f, ty) ∈ dtypes ∧ ty = "double" ∧ f ≠ "price" := by
  simp only [numericCols, List.mem_map, List.mem_filter]
  constructor
  · rintro ⟨⟨a, b⟩, ⟨hmem, hb⟩, rfl⟩
    simp only [Bool.and_eq_true, beq_iff_eq, bne_iff_ne] at hb
    exact ⟨b, hmem, hb.1, hb.2⟩
  · rintro ⟨ty, hmem, rfl, hne⟩
    exact ⟨(f, "double"), ⟨hmem, by simp [hne]⟩, rfl⟩

/-- **C6**: the Schema Splitter classifies every column typed `"string"` as a
categorical feature, every column typed `"double"` and not named `"price"`
(the label) as a numeric feature, and ignores all other columns (each output
list draws only from columns of the matching type); within each output list
the column order matches the schema's declared order (sublist of the schema's
field order). -/
theorem c6_schema_splitter (dtypes : Schema) :
    (∀ f ty, (f, ty) ∈ dtypes → ty = "string" → f ∈ categoricalCols dtypes) ∧
    (∀ f ty, (f, ty) ∈ dtypes → ty = "double" → f ≠ "price" → f ∈ numericCols dtypes) ∧
    (∀ f, f ∈ categoricalCols dtypes → ∃ ty, (f, ty) ∈ dtypes ∧ ty = "string") ∧
    (∀ f, f ∈ numericCols dtypes → ∃ ty, (f, ty) ∈ dtypes ∧ ty = "double" ∧ f ≠ "price") ∧
    List.Sublist (categoricalCols dtypes) (dtypes.map Prod.fst) ∧
    List.Sublist (numericCols dtypes) (dtypes.map Prod.fst) := by
  refine ⟨?_, ?_, ?_, ?_, ?_, ?_⟩
  · intro f ty hmem hty
    exact (mem_categoricalCols dtypes f).mpr ⟨ty, hmem, hty⟩
  · intro f ty hmem hty hne
    exact (mem_numericCols dtypes f).mpr ⟨ty, hmem, hty, hne⟩
  · exact fun f hf => (mem_categoricalCols dtypes f).mp hf
  · exact fun f hf => (mem_numericCols dtypes f).mp hf
  · exact (List.filter_sublist dtypes).map Prod.fst
  · exact (List.filter_sublist dtypes).map Prod.fst

/-- **C5**: for every row (train, test or prediction input) the assembled
Feature Vector has length `#categorical + #numeric`, its entries are all the
encoded categorical columns in schema discovery order followed by all the
numeric columns in schema discovery order, and this length is the same for
every row (the input-column list is a fixed function of the schema, shared by
train, test and prediction calls). -/
theorem c5_feature_vector (dtypes : Schema) (row : String → ℚ) :
    (featureVector (assemblerInputs dtypes) row).length
      = (categoricalCols dtypes).length + (numericCols dtypes).length ∧
    featureVector (assemblerInputs dtypes) row
      = ((categoricalCols dtypes).map (fun c => row (c ++ "Index")))
        ++ ((numericCols dtypes).map row) ∧
    (∀ row2 : String → ℚ,
      (featureVector (assemblerInputs dtypes) row).length
        = (featureVector (assemblerInputs dtypes) row2).length) := by
  refine ⟨?_, ?_, ?_⟩
  · simp [featureVector, assemblerInputs, indexOutputCols]
  · simp [featureVector, assemblerInputs, indexOutputCols, Function.comp]
  · intro row2
    simp [featureVector]

/-- Modelled from the spec: the distinct values of a list, in first-seen
order (the deterministic order the Categorical Encoder assigns codes in). -/
def distinctVals (vs : List String) : List String :=
  vs.foldl (fun acc v => if v ∈ acc then acc else acc ++ [v]) []

/-- Modelled from the spec: fitting the Categorical Encoder (`StringIndexer`,
not in this repository's source) on train rows builds, for each categorical
column, the table of observed values; the code of a value is its position in
that table.  A row is a total map from column name to string value. -/
def fitEncoder (cols : List String) (rows : List (String → String)) :
    String → List String :=
  fun c => if c ∈ cols then distinctVals (rows.map (fun r => r c)) else []

/-- Modelled from the spec: encoding one row under a fitted table replaces
each categorical value by its integer code; the result is `none` (row
dropped) when some categorical value is absent from the table. -/
def encodeRow (cols : List String) (table : String → List String)
    (r : String → String) : Option (String → ℕ) :=
  if ∀ c ∈ cols, r c ∈ table c then
    some (fun c => (table c).findIdx (fun v => v == r c))
  else none

/-- Modelled from the spec: applying the fitted encoder (`handleInvalid="skip"`
in both notebooks) encodes each row independently and silently drops the rows
`encodeRow` rejects, rather than failing. -/
def applyEncoder (cols : List String) (table : String → List String)
    (rows : List (String → String)) : List (String → ℕ) :=
  rows.filterMap (encodeRow cols table)

/-- **C3**: applying the fitted encoder never fails: it keeps exactly the
rows all of whose categorical values appear in the table for their column —
each such row encoded by replacing values with their codes — and drops every
row containing a value absent from the table. -/
theorem c3_unseen_rows_dropped (cols : List String) (table : String → List String)
    (rows : List (String → String)) :
    applyEncoder cols table rows
      = ((rows.filter (fun r => decide (∀ c ∈ cols, r c ∈ table c))).map
          (fun r => fun c => (table c).findIdx (fun v => v == r c))) := by
  induction rows with
  | nil => rfl
  | cons r rs ih =>
    rw [applyEncoder, List.filterMap_cons, List.filter_cons]
    by_cases h : ∀ c ∈ cols, r c ∈ table c
    · rw [encodeRow, if_pos h, if_pos (decide_eq_true h), List.map_cons]
      exact congrArg (List.cons _) ih
    · rw [encodeRow, if_neg h, if_neg (by simpa using h)]
      exact ih

/-- Row index `i` is assigned to fold `(i + seed) % k`.  Modelled from the
spec: the `CrossValidator` (not in this repository's source) partitions the
training rows into `k` roughly-equal disjoint folds under a fixed seed. -/
def foldOf (seed k i : ℕ) : ℕ := (i + seed) % k

/-- The validation slice of fold `j`: the rows whose index lands in fold `j`. -/
def foldRows (k seed : ℕ) (rows : List α) (j : ℕ) : List α :=
  (rows.enum.filter (fun p => foldOf seed k p.1 == j)).map Prod.snd

/-- The training slice of fold `j`: the rows of the other `k − 1` folds. -/
def trainFoldRows (k seed : ℕ) (rows : List α) (j : ℕ) : List α :=
  (rows.enum.filter (fun p => foldOf seed k p.1 != j)).map Prod.snd

/-- Modelled from the spec/source: first arrangement of the tuning notebook —
the whole pipeline is the `CrossValidator`'s estimator, so the encoder is
refit, for each fold `j`, on that fold's `k − 1` training folds only. -/
def encoderTableA (cols : List String) (k seed : ℕ)
    (rows : List (String → String)) (j : ℕ) : String → List String :=
  fitEncoder cols (trainFoldRows k seed rows j)

/-- Modelled from the spec/source: second arrangement — the `CrossValidator`
is a pipeline stage after the encoder, so the encoder is fit exactly once, on
the entire training set, and that single table is reused for every fold. -/
def encoderTableB (cols : List String) (rows : List (String → String)) :
    String → List String :=
  fitEncoder cols rows

/-- Concrete three-row dataset with one categorical column `"x"` taking a
different value in each row. -/
def rowsAB : List (String → String) :=
  [fun _ => "a", fun _ => "b", fun _ => "c"]

/-- **C10**: the two cross-validation arrangements are not equivalent.  In
arrangement A the encoder's table for fold `j` is fit on the `k − 1` training
folds; in arrangement B it is fit once on all rows and reused for every fold.
On `rowsAB` with `k = 3`, fold 0's table differs between the arrangements,
and consequently arrangement A drops fold 0's validation row (value `"a"`
unseen in its training folds) while arrangement B keeps it. -/
theorem c10_cv_arrangements_differ :
    (∀ (cols : List String) (k seed : ℕ) (rows : List (String → String)) (j : ℕ),
      encoderTableA cols k seed rows j = fitEncoder cols (trainFoldRows k seed rows j) ∧
      encoderTableB cols rows = fitEncoder cols rows) ∧
    encoderTableA ["x"] 3 0 rowsAB 0 "x" ≠ encoderTableB ["x"] rowsAB "x" ∧
    applyEncoder ["x"] (encoderTableA ["x"] 3 0 rowsAB 0) (foldRows 3 0 rowsAB 0) = [] ∧
    (applyEncoder ["x"] (encoderTableB ["x"] rowsAB) (foldRows 3 0 rowsAB 0)).length = 1 := by
  refine ⟨fun cols k seed rows j => ⟨rfl, rfl⟩, ?_, ?_, ?_⟩
  · decide
  · rfl
  · rfl

/-- The index set of fold `j` among `n` training rows. -/
def foldIdxs (n k seed j : ℕ) : Finset ℕ :=
  (Finset.range n).filter (fun i => foldOf seed k i = j)

/-- The index set of the `k − 1` training folds complementary to fold `j`. -/
def trainIdxs (n k seed j : ℕ) : Finset ℕ :=
  (Finset.range n).filter (fun i => foldOf seed k i ≠ j)

/-- Counting residues below `m`: among `0, …, m−1` exactly
`m / k + (1 if j < m % k)` numbers have residue `j` modulo `k`. -/
theorem card_range_filter_mod (k : ℕ) (hk : 0 < k) (j : ℕ) (hj : j < k) (m : ℕ) :
    ((Finset.range m).filter (fun i => i % k = j)).card
      = m / k + if j < m % k then 1 else 0 := by
  induction m with
  | zero => simp
  | succ m ih =>
    have hr : m % k < k := Nat.mod_lt _ hk
    have hdm : k * (m / k) + m % k = m := Nat.div_add_mod m k
    rw [Finset.range_succ, Finset.filter_insert]
    rcases Nat.lt_or_ge (m % k + 1) k with hlt | hge
    · have heq : m + 1 = (m % k + 1) + k * (m / k) := by linarith
      have hmod : (m + 1) % k = m % k + 1 := by
        rw [heq, Nat.add_mul_mod_self_left, Nat.mod_eq_of_lt hlt]
      have hdiv : (m + 1) / k = m / k := by
        rw [heq, Nat.add_mul_div_left _ _ hk, Nat.div_eq_of_lt hlt, Nat.zero_add]
      by_cases hmj : m % k = j
      · rw [if_pos hmj, Finset.card_insert_of_not_mem (by simp), ih, hdiv, hmod, ← hmj,
          if_neg (lt_irrefl _), if_pos (Nat.lt_succ_self _)]
      · rw [if_neg hmj, ih, hdiv, hmod]
        by_cases hj2 : j < m % k
        · rw [if_pos hj2, if_pos (Nat.lt_succ_of_lt hj2)]
        · rw [if_neg hj2, if_neg (fun hcon =>
            hj2 (Nat.lt_of_le_of_ne (Nat.lt_succ_iff.mp hcon) (fun h => hmj h.symm)))]
    · have hreq : m % k + 1 = k := Nat.le_antisymm hr hge
      have heq : m + 1 = k * (m / k + 1) := by
        have hmul : k * (m / k + 1) = k * (m / k) + k := by ring
        linarith
      have hmod : (m + 1) % k = 0 := by rw [heq]; exact Nat.mul_mod_right k _
      have hdiv : (m + 1) / k = m / k + 1 := by
        rw [heq]; exact Nat.mul_div_cancel_left _ hk
      by_cases hmj : m % k = j
      · rw [if_pos hmj, Finset.card_insert_of_not_mem (by simp), ih, hdiv, hmod, ← hmj,
          if_neg (lt_irrefl _), if_neg (Nat.not_lt_zero _)]
      · rw [if_neg hmj, ih, hdiv, hmod, if_neg (Nat.not_lt_zero _),
          if_pos (Nat.lt_of_le_of_ne (by omega) (fun h => hmj h.symm))]

/-- Fold membership as a residue condition: `foldOf seed k i = j` iff
`i` has residue `(j + (k − seed % k)) % k` modulo `k`. -/
theorem foldOf_eq_iff (k : ℕ) (hk : 0 < k) (seed j i : ℕ) (hj : j < k) :
    foldOf seed k i = j ↔ i % k = (j + (k - seed % k)) % k := by
  have hs : seed % k < k := Nat.mod_lt _ hk
  have hrs : ((j + (k - seed % k)) % k + seed) % k = j := by
    rw [Nat.mod_add_mod]
    have h1 : (j + (k - seed % k) + seed) % k = (j + (k - seed % k) + seed % k) % k := by
      conv_lhs => rw [Nat.add_mod]
      conv_rhs => rw [Nat.add_mod]
      rw [Nat.mod_mod_of_dvd _ dvd_rfl]
    rw [h1, Nat.add_assoc, Nat.sub_add_cancel (le_of_lt hs), Nat.add_mod_right,
      Nat.mod_eq_of_lt hj]
  have hcancel : ∀ a b, a < k → b < k → (a + seed) % k = (b + seed) % k → a = b := by
    intro a b ha hb hab
    have h1 : a ≡ b [MOD k] := Nat.ModEq.add_right_cancel' seed hab
    simpa [Nat.ModEq, Nat.mod_eq_of_lt ha, Nat.mod_eq_of_lt hb] using h1
  constructor
  · intro h
    refine hcancel (i % k) _ (Nat.mod_lt _ hk) (Nat.mod_lt _ hk) ?_
    rw [Nat.mod_add_mod, hrs]
    exact h
  · intro h
    have : (i % k + seed) % k = (i + seed) % k := Nat.mod_add_mod i k seed
    rw [foldOf, ← this, h, hrs]

/-- Size of a fold: the residue-count formula carries over to `foldIdxs`. -/
theorem card_foldIdxs (n k seed j : ℕ) (hk : 0 < k) (hj : j < k) :
    (foldIdxs n k seed j).card
      = n / k + if (j + (k - seed % k)) % k < n % k then 1 else 0 := by
  have hfd : foldIdxs n k seed j
      = (Finset.range n).filter (fun i => i % k = (j + (k - seed % k)) % k) := by
    apply Finset.filter_congr
    intro i _
    exact foldOf_eq_iff k hk seed j i hj
  rw [hfd, card_range_filter_mod k hk _ (Nat.mod_lt _ hk) n]

/-- Folds are roughly equal: any two fold sizes differ by at most one. -/
theorem foldIdxs_card_le (n k seed j1 j2 : ℕ) (hk : 0 < k) (h1 : j1 < k) (h2 : j2 < k) :
    (foldIdxs n k seed j1).card ≤ (foldIdxs n k seed j2).card + 1 := by
  rw [card_foldIdxs n k seed j1 hk h1, card_foldIdxs n k seed j2 hk h2]
  split_ifs <;> simp [Nat.add_assoc, Nat.le_succ]

/-- Folds are pairwise disjoint. -/
theorem foldIdxs_disjoint (n k seed j1 j2 : ℕ) (hne : j1 ≠ j2) :
    Disjoint (foldIdxs n k seed j1) (foldIdxs n k seed j2) := by
  rw [Finset.disjoint_left]
  intro i hi1 hi2
  rw [foldIdxs, Finset.mem_filter] at hi1 hi2
  exact hne (hi1.2.symm.trans hi2.2)

/-- The `k` folds cover all `n` row indices. -/
theorem foldIdxs_cover (n k seed : ℕ) (hk : 0 < k) :
    (Finset.range k).biUnion (foldIdxs n k seed) = Finset.range n := by
  ext i
  simp only [Finset.mem_biUnion, Finset.mem_range, foldIdxs, Finset.mem_filter]
  constructor
  · rintro ⟨j, _, hin, _⟩
    exact hin
  · intro hin
    exact ⟨foldOf seed k i, Nat.mod_lt _ hk, hin, rfl⟩

/-- The training slice of fold `j` is the complement of fold `j`. -/
theorem trainIdxs_eq_sdiff (n k seed j : ℕ) :
    trainIdxs n k seed j = Finset.range n \ foldIdxs n k seed j := by
  ext i
  simp [trainIdxs, foldIdxs, Finset.mem_filter, Finset.mem_sdiff]
  tauto

/-- `maxDepth` candidate values `[2, 4, 6]` from the tuning notebook. -/
def maxDepthVals : List ℕ := [2, 4, 6]

/-- `numTrees` candidate values `[10, 100]` from the tuning notebook. -/
def numTreesVals : List ℕ := [10, 100]

/-- `paramGrid`: the full cross product of the candidate value lists, as
built by `ParamGridBuilder().addGrid(rf.maxDepth, [2,4,6]).addGrid(rf.numTrees, [10,100]).build()`. -/
def paramGrid : List (ℕ × ℕ) :=
  maxDepthVals.flatMap (fun d => numTreesVals.map (fun t => (d, t)))

/-- First-minimum selection: fold over the list keeping the element with the
strictly smaller score. -/
def argminQ {α : Type} (f : α → ℚ) (x : α) (xs : List α) : α :=
  xs.foldl (fun b g => if f g < f b then g else b) x

theorem argminQ_cons {α : Type} (f : α → ℚ) (x y : α) (ys : List α) :
    argminQ f x (y :: ys) = if f y < f x then argminQ f y ys else argminQ f x ys := by
  by_cases h : f y < f x <;> simp [argminQ, h]

theorem argminQ_mem {α : Type} (f : α → ℚ) (x : α) (xs : List α) :
    argminQ f x xs ∈ x :: xs := by
  induction xs generalizing x with
  | nil => simp [argminQ]
  | cons y ys ih =>
    rw [argminQ_cons]
    by_cases h : f y < f x
    · rw [if_pos h]
      exact List.mem_cons_of_mem x (ih y)
    · rw [if_neg h]
      rcases List.mem_cons.mp (ih x) with h2 | h2
      · rw [h2]
        exact List.mem_cons_self x (y :: ys)
      · exact List.mem_cons_of_mem x (List.mem_cons_of_mem y h2)

theorem argminQ_le {α : Type} (f : α → ℚ) (x : α) (xs : List α) :
    ∀ y ∈ x :: xs, f (argminQ f x xs) ≤ f y := by
  induction xs generalizing x with
  | nil =>
    intro y hy
    rcases List.mem_cons.mp hy with h | h
    · rw [h]
      simp [argminQ]
    · simp at h
  | cons z zs ih =>
    intro y hy
    rw [argminQ_cons]
    by_cases h : f z < f x
    · rw [if_pos h]
      rcases List.mem_cons.mp hy with h2 | h2
      · rw [h2]
        exact le_trans (ih z z (List.mem_cons_self z zs)) (le_of_lt h)
      · exact ih z y h2
    · rw [if_neg h]
      rcases List.mem_cons.mp hy with h2 | h2
      · rw [h2]
        exact ih x x (List.mem_cons_self x zs)
      · rcases List.mem_cons.mp h2 with h3 | h3
        · rw [h3]
          exact le_trans (ih x x (List.mem_cons_self x zs)) (le_of_not_lt h)
        · exact ih x y (List.mem_cons_of_mem x h3)

/-- Modelled from the spec: one grid-point × fold evaluation — train on the
`k − 1` training folds, score (RMSE) on the held-out fold.  The estimator and
scorer are abstract parameters: `fitF g s` trains a model at grid point `g`
on the rows with indices `s`, `scoreF m s` scores model `m` on rows `s`. -/
def foldScore {M : Type} (fitF : ℕ × ℕ → Finset ℕ → M) (scoreF : M → Finset ℕ → ℚ)
    (n k seed : ℕ) (g : ℕ × ℕ) (j : ℕ) : ℚ :=
  scoreF (fitF g (trainIdxs n k seed j)) (foldIdxs n k seed j)

/-- Modelled from the spec: the average of the `k` fold scores of grid
point `g`. -/
def avgScore {M : Type} (fitF : ℕ × ℕ → Finset ℕ → M) (scoreF : M → Finset ℕ → ℚ)
    (n k seed : ℕ) (g : ℕ × ℕ) : ℚ :=
  ((List.range k).map (foldScore fitF scoreF n k seed g)).sum / k

/-- Modelled from the spec: the `CrossValidator` selects the grid point with
the lowest average RMSE (first such point on ties). -/
def cvSelect {M : Type} (fitF : ℕ × ℕ → Finset ℕ → M) (scoreF : M → Finset ℕ → ℚ)
    (n k seed : ℕ) : ℕ × ℕ :=
  argminQ (avgScore fitF scoreF n k seed) (2, 10) paramGrid.tail

/-- Modelled from the spec: the final model is refit at the selected grid
point on the entire training set. -/
def cvFinalModel {M : Type} (fitF : ℕ × ℕ → Finset ℕ → M) (scoreF : M → Finset ℕ → ℚ)
    (n k seed : ℕ) : M :=
  fitF (cvSelect fitF scoreF n k seed) (Finset.range n)

theorem paramGrid_eq_cons : paramGrid = (2, 10) :: paramGrid.tail := by decide

/-- **C1**: the Hyperparameter Search partitions the `n` training rows into
`k` disjoint, roughly-equal (sizes differ by at most one) folds under the
fixed seed; the grid is the full cross product of the candidate value lists;
each grid point's average score averages, over every fold, the score of the
model trained on the other `k − 1` folds and evaluated on the held-out fold;
the selected grid point attains the minimal average RMSE over the grid; and
the final model is refit at the selected grid point on the whole training
set. -/
theorem c1_hyperparameter_search {M : Type} (fitF : ℕ × ℕ → Finset ℕ → M)
    (scoreF : M → Finset ℕ → ℚ) (n k seed : ℕ) (hk : 0 < k) :
    (∀ j1 j2, j1 ≠ j2 → Disjoint (foldIdxs n k seed j1) (foldIdxs n k seed j2)) ∧
    ((Finset.range k).biUnion (foldIdxs n k seed) = Finset.range n) ∧
    (∀ j1 j2, j1 < k → j2 < k →
      (foldIdxs n k seed j1).card ≤ (foldIdxs n k seed j2).card + 1) ∧
    (∀ g : ℕ × ℕ, g ∈ paramGrid ↔ g.1 ∈ maxDepthVals ∧ g.2 ∈ numTreesVals) ∧
    (∀ j, trainIdxs n k seed j = Finset.range n \ foldIdxs n k seed j) ∧
    (∀ g, avgScore fitF scoreF n k seed g
        = ((List.range k).map (fun j =>
            scoreF (fitF g (trainIdxs n k seed j)) (foldIdxs n k seed j))).sum / k) ∧
    cvSelect fitF scoreF n k seed ∈ paramGrid ∧
    (∀ g ∈ paramGrid,
      avgScore fitF scoreF n k seed (cvSelect fitF scoreF n k seed)
        ≤ avgScore fitF scoreF n k seed g) ∧
    cvFinalModel fitF scoreF n k seed
      = fitF (cvSelect fitF scoreF n k seed) (Finset.range n) := by
  refine ⟨fun j1 j2 => foldIdxs_disjoint n k seed j1 j2,
    foldIdxs_cover n k seed hk,
    fun j1 j2 h1 h2 => foldIdxs_card_le n k seed j1 j2 hk h1 h2,
    ?_, fun j => trainIdxs_eq_sdiff n k seed j, fun g => rfl, ?_, ?_, rfl⟩
  · intro g
    simp only [paramGrid, List.mem_flatMap, List.mem_map]
    constructor
    · rintro ⟨d, hd, t, ht, rfl⟩
      exact ⟨hd, ht⟩
    · rintro ⟨hd, ht⟩
      exact ⟨g.1, hd, g.2, ht, rfl⟩
  · rw [cvSelect, paramGrid_eq_cons]
    exact argminQ_mem _ _ _
  · intro g hg
    rw [paramGrid_eq_cons] at hg
    exact argminQ_le _ _ _ g hg

/-- Witness for C1 at `n = 7`, `k = 3`, `seed = 42`, a concrete estimator
`fitF g s = (g.1 : ℚ) + g.2 + s.card` and scorer `scoreF m s = m + s.card`. -/
theorem c1_hyperparameter_search_witness :
    (0 < 3) ∧
    ((∀ j1 j2, j1 ≠ j2 → Disjoint (foldIdxs 7 3 42 j1) (foldIdxs 7 3 42 j2)) ∧
    ((Finset.range 3).biUnion (foldIdxs 7 3 42) = Finset.range 7) ∧
    (∀ j1 j2, j1 < 3 → j2 < 3 →
      (foldIdxs 7 3 42 j1).card ≤ (foldIdxs 7 3 42 j2).card + 1) ∧
    (∀ g : ℕ × ℕ, g ∈ paramGrid ↔ g.1 ∈ maxDepthVals ∧ g.2 ∈ numTreesVals) ∧
    (∀ j, trainIdxs 7 3 42 j = Finset.range 7 \ foldIdxs 7 3 42 j) ∧
    (∀ g, avgScore (fun g s => (g.1 : ℚ) + g.2 + s.card) (fun m s => m + s.card) 7 3 42 g
        = ((List.range 3).map (fun j =>
            (fun (m : ℚ) (s : Finset ℕ) => m + s.card)
              ((fun (g : ℕ × ℕ) (s : Finset ℕ) => (g.1 : ℚ) + g.2 + s.card) g
                (trainIdxs 7 3 42 j))
              (foldIdxs 7 3 42 j))).sum / 3) ∧
    cvSelect (fun g s => (g.1 : ℚ) + g.2 + s.card) (fun m s => m + s.card) 7 3 42
      ∈ paramGrid ∧
    (∀ g ∈ paramGrid,
      avgScore (fun g s => (g.1 : ℚ) + g.2 + s.card) (fun m s => m + s.card) 7 3 42
          (cvSelect (fun g s => (g.1 : ℚ) + g.2 + s.card) (fun m s => m + s.card) 7 3 42)
        ≤ avgScore (fun g s => (g.1 : ℚ) + g.2 + s.card) (fun m s => m + s.card) 7 3 42 g) ∧
    cvFinalModel (fun g s => (g.1 : ℚ) + g.2 + s.card) (fun m s => m + s.card) 7 3 42
      = (fun (g : ℕ × ℕ) (s : Finset ℕ) => (g.1 : ℚ) + g.2 + s.card)
          (cvSelect (fun g s => (g.1 : ℚ) + g.2 + s.card) (fun m s => m + s.card) 7 3 42)
          (Finset.range 7)) :=
  ⟨by norm_num,
    c1_hyperparameter_search (fun g s => (g.1 : ℚ) + g.2 + s.card)
      (fun m s => m + s.card) 7 3 42 (by norm_num)⟩

/-- Modelled from the spec: execution under parallelism degree `p` — the
task list is processed in successive batches of at most `max p 1` concurrent
tasks, each batch's results collected in task order and appended. -/
def chunkedMap {α β : Type} (p : ℕ) (f : α → β) (ts : List α) : List β :=
  match ts with
  | [] => []
  | x :: xs =>
    ((x :: xs).take (max p 1)).map f ++ chunkedMap p f ((x :: xs).drop (max p 1))
termination_by ts.length
decreasing_by
  simp only [List.length_drop, List.length_cons]
  exact Nat.sub_lt (Nat.succ_pos _) (lt_of_lt_of_le Nat.zero_lt_one (le_max_right p 1))

/-- Batched execution returns exactly the sequential map, whatever the batch
size. -/
theorem chunkedMap_eq_map {α β : Type} (p : ℕ) (f : α → β) :
    ∀ (n : ℕ) (ts : List α), ts.length ≤ n → chunkedMap p f ts = ts.map f
  | _, [], _ => by rw [chunkedMap]; rfl
  | 0, x :: xs, h => by simp at h
  | n + 1, x :: xs, h => by
    rw [chunkedMap]
    have hlen : ((x :: xs).drop (max p 1)).length ≤ n := by
      simp only [List.length_drop, List.length_cons]
      have h1 : 1 ≤ max p 1 := le_max_right p 1
      have h2 : xs.length + 1 - max p 1 ≤ xs.length + 1 - 1 := Nat.sub_le_sub_left h1 _
      simp only [List.length_cons] at h
      omega
    rw [chunkedMap_eq_map p f n _ hlen, ← List.map_append, List.take_append_drop]

/-- Modelled from the spec: the per-grid-point average score when the `k`
fold evaluations are executed under parallelism degree `p`. -/
def avgScorePar {M : Type} (p : ℕ) (fitF : ℕ × ℕ → Finset ℕ → M)
    (scoreF : M → Finset ℕ → ℚ) (n k seed : ℕ) (g : ℕ × ℕ) : ℚ :=
  (chunkedMap p (foldScore fitF scoreF n k seed g) (List.range k)).sum / k

/-- Modelled from the spec: grid-point selection when fold evaluations run
under parallelism degree `p` (this is `cv.setParallelism(p)` in the tuning
notebook). -/
def cvSelectPar {M : Type} (p : ℕ) (fitF : ℕ × ℕ → Finset ℕ → M)
    (scoreF : M → Finset ℕ → ℚ) (n k seed : ℕ) : ℕ × ℕ :=
  argminQ (avgScorePar p fitF scoreF n k seed) (2, 10) paramGrid.tail

theorem avgScorePar_eq_avgScore {M : Type} (p : ℕ) (fitF : ℕ × ℕ → Finset ℕ → M)
    (scoreF : M → Finset ℕ → ℚ) (n k seed : ℕ) (g : ℕ × ℕ) :
    avgScorePar p fitF scoreF n k seed g = avgScore fitF scoreF n k seed g := by
  rw [avgScorePar, avgScore,
    chunkedMap_eq_map p (foldScore fitF scoreF n k seed g) (List.range k).length _ le_rfl]

/-- **C4**: for identical data, grid, fold count and seed, both the selected
grid point and every grid point's average score are identical regardless of
the parallelism degree; in particular parallelism 1 and parallelism 4 give
exactly the same numeric results. -/
theorem c4_parallelism_invariance {M : Type} (fitF : ℕ × ℕ → Finset ℕ → M)
    (scoreF : M → Finset ℕ → ℚ) (n k seed : ℕ) (p q : ℕ) :
    (∀ g, avgScorePar p fitF scoreF n k seed g = avgScorePar q fitF scoreF n k seed g) ∧
    cvSelectPar p fitF scoreF n k seed = cvSelectPar q fitF scoreF n k seed ∧
    (∀ g, avgScorePar 1 fitF scoreF n k seed g = avgScorePar 4 fitF scoreF n k seed g) ∧
    cvSelectPar 1 fitF scoreF n k seed = cvSelectPar 4 fitF scoreF n k seed := by
  have havg : ∀ r : ℕ, avgScorePar r fitF scoreF n k seed = avgScore fitF scoreF n k seed :=
    fun r => funext (avgScorePar_eq_avgScore r fitF scoreF n k seed)
  have hsel : ∀ r : ℕ, cvSelectPar r fitF scoreF n k seed = cvSelect fitF scoreF n k seed := by
    intro r
    rw [cvSelectPar, cvSelect, havg r]
  exact ⟨fun g => by rw [havg p, havg q], (hsel p).trans (hsel q).symm,
    fun g => by rw [havg 1, havg 4], (hsel 1).trans (hsel 4).symm⟩

/-- The error kind raised by a misconfigured estimator. -/
inductive FitError : Type
  | configurationError
deriving DecidableEq

/-- Modelled from the spec: fitting a tree estimator (`DecisionTreeRegressor`
/ `RandomForestRegressor`, not in this repository's source) with a max-bins
bound, over categorical columns whose distinct-category counts are
`catCards`, fails with a configuration error when some categorical column
has more distinct categories than max-bins, and succeeds otherwise. -/
def fitWithMaxBins (maxBins : ℕ) (catCards : List ℕ) : Except FitError Unit :=
  if catCards.all (fun c => c ≤ maxBins) then Except.ok ()
  else Except.error FitError.configurationError

/-- **C2**: fitting fails with a configuration error precisely when max-bins
is below some categorical column's distinct-category count, and succeeds
precisely when max-bins is at or above every categorical column's count. -/
theorem c2_max_bins (maxBins : ℕ) (catCards : List ℕ) :
    (fitWithMaxBins maxBins catCards = Except.error FitError.configurationError
      ↔ ∃ c ∈ catCards, maxBins < c) ∧
    (fitWithMaxBins maxBins catCards = Except.ok ()
      ↔ ∀ c ∈ catCards, c ≤ maxBins) := by
  rw [fitWithMaxBins]
  split_ifs with h
  · simp only [List.all_eq_true, decide_eq_true_eq] at h
    refine ⟨⟨fun hcon => by simp at hcon, ?_⟩, ⟨fun _ => h, fun _ => rfl⟩⟩
    rintro ⟨c, hc, hlt⟩
    exact absurd (h c hc) (not_le.mpr hlt)
  · simp only [List.all_eq_true, decide_eq_true_eq] at h
    push_neg at h
    obtain ⟨c, hc, hlt⟩ := h
    refine ⟨⟨fun _ => ⟨c, hc, hlt⟩, fun _ => rfl⟩, ⟨fun hcon => by simp at hcon, ?_⟩⟩
    intro hall
    exact absurd (hall c hc) (not_le.mpr hlt)

/-- Modelled from the spec: the Evaluator's mean squared error over a list of
`(prediction, true label)` pairs; RMSE is its square root. -/
def mseSpec (pairs : List (ℚ × ℚ)) : ℚ :=
  ((pairs.map (fun pr => (pr.1 - pr.2) ^ 2)).sum) / pairs.length

/-- Modelled from the spec: the Evaluator's R² — one minus the ratio of the
sum of squared residuals to the total sum of squares around the true-label
mean. -/
def r2Spec (pairs : List (ℚ × ℚ)) : ℚ :=
  1 - ((pairs.map (fun pr => (pr.1 - pr.2) ^ 2)).sum)
    / ((pairs.map (fun pr =>
        (pr.2 - (pairs.map Prod.snd).sum / pairs.length) ^ 2)).sum)

/-- The claim's worked example: true labels `[10, 20, 30]`, predictions
`[12, 18, 33]`, as `(prediction, label)` pairs. -/
def evalExample : List (ℚ × ℚ) := [(12, 10), (18, 20), (33, 30)]

/-- **C8 counterexample**: on the claim's own example the Evaluator yields
R² = 1 − 17/200 = 0.915, not 1 − 29/200 ≈ 0.855, and an RMSE above 2.3
(in fact √(17/3) ≈ 2.38), not ≈ 2.06; the claim's numeric instance is wrong
on both metrics. -/
theorem c8_counterexample :
    r2Spec evalExample ≠ 1 - 29 / 200 ∧
    (2.3 : ℝ) < Real.sqrt ((mseSpec evalExample : ℚ) : ℝ) := by
  constructor
  · norm_num [r2Spec, evalExample]
  · have hm : mseSpec evalExample = 17 / 3 := by norm_num [mseSpec, evalExample]
    rw [hm]
    have hcast : (((17 / 3 : ℚ)) : ℝ) = 17 / 3 := by norm_num
    rw [hcast]
    exact (Real.lt_sqrt (by norm_num)).mpr (by norm_num)

/-- **C8 (amended)**: the Evaluator computes MSE = mean((pred − true)²) and
R² = 1 − ssRes/ssTot; on true labels `[10,20,30]` and predictions
`[12,18,33]` it yields MSE = 17/3, hence RMSE = √(17/3) ≈ 2.38 (strictly
between 2.38 and 2.39), and R² = 1 − 17/200 = 0.915. -/
theorem c8_evaluator_amended :
    mseSpec evalExample = 17 / 3 ∧
    Real.sqrt ((mseSpec evalExample : ℚ) : ℝ) ^ 2 = 17 / 3 ∧
    (2.38 : ℝ) < Real.sqrt ((mseSpec evalExample : ℚ) : ℝ) ∧
    Real.sqrt ((mseSpec evalExample : ℚ) : ℝ) < 2.39 ∧
    r2Spec evalExample = 1 - 17 / 200 := by
  have hm : mseSpec evalExample = 17 / 3 := by norm_num [mseSpec, evalExample]
  have hcast : ((mseSpec evalExample : ℚ) : ℝ) = 17 / 3 := by rw [hm]; norm_num
  refine ⟨hm, ?_, ?_, ?_, ?_⟩
  · rw [hcast]
    exact Real.sq_sqrt (by norm_num)
  · rw [hcast]
    exact (Real.lt_sqrt (by norm_num)).mpr (by norm_num)
  · rw [hcast]
    exact (Real.sqrt_lt' (by norm_num)).mpr (by norm_num)
  · norm_num [r2Spec, evalExample]

/-- Modelled from the spec: a regression tree — internal nodes route on a
feature/threshold comparison, leaves hold the predicted value. -/
inductive RTree : Type
  | leaf (v : ℚ)
  | node (feat : ℕ) (thr : ℚ) (left right : RTree)

/-- Prediction walks the tree on the feature vector and returns the value of
the leaf reached. -/
def RTree.predict : RTree → (ℕ → ℚ) → ℚ
  | .leaf v, _ => v
  | .node f t l r, x => if x f ≤ t then l.predict x else r.predict x

/-- All leaf values of a tree. -/
def RTree.leafVals : RTree → List ℚ
  | .leaf v => [v]
  | .node _ _ l r => l.leafVals ++ r.leafVals

/-- Modelled from the spec: a tree produced by fitting on `labels` — every
leaf predicts the mean of the labels of the nonempty train subset routed to
that leaf. -/
def WellTrained (labels : List ℚ) (t : RTree) : Prop :=
  ∀ v ∈ t.leafVals, ∃ s : List ℚ, s ≠ [] ∧ (∀ y ∈ s, y ∈ labels) ∧ v = s.sum / s.length

/-- Modelled from the spec: the forest's prediction is the mean of its member
trees' predictions. -/
def forestPredict (ts : List RTree) (x : ℕ → ℚ) : ℚ :=
  ((ts.map (fun t => RTree.predict t x)).sum) / ts.length

/-- Smallest element of a list of rationals (`0` for the empty list). -/
def listMin : List ℚ → ℚ
  | [] => 0
  | v :: vs => vs.foldl min v

/-- Largest element of a list of rationals (`0` for the empty list). -/
def listMax : List ℚ → ℚ
  | [] => 0
  | v :: vs => vs.foldl max v

theorem foldl_min_le (vs : List ℚ) (v : ℚ) : ∀ y ∈ v :: vs, vs.foldl min v ≤ y := by
  induction vs generalizing v with
  | nil =>
    intro y hy
    rcases List.mem_cons.mp hy with h | h
    · rw [h]
      exact le_refl v
    · simp at h
  | cons w ws ih =>
    intro y hy
    rw [List.foldl_cons]
    rcases List.mem_cons.mp hy with h | h
    · rw [h]
      exact le_trans (ih (min v w) (min v w) (List.mem_cons_self _ _)) (min_le_left v w)
    · rcases List.mem_cons.mp h with h2 | h2
      · rw [h2]
        exact le_trans (ih (min v w) (min v w) (List.mem_cons_self _ _)) (min_le_right v w)
      · exact ih (min v w) y (List.mem_cons_of_mem _ h2)

theorem le_foldl_max (vs : List ℚ) (v : ℚ) : ∀ y ∈ v :: vs, y ≤ vs.foldl max v := by
  induction vs generalizing v with
  | nil =>
    intro y hy
    rcases List.mem_cons.mp hy with h | h
    · rw [h]
      exact le_refl v
    · simp at h
  | cons w ws ih =>
    intro y hy
    rw [List.foldl_cons]
    rcases List.mem_cons.mp hy with h | h
    · rw [h]
      exact le_trans (le_max_left v w) (ih (max v w) (max v w) (List.mem_cons_self _ _))
    · rcases List.mem_cons.mp h with h2 | h2
      · rw [h2]
        exact le_trans (le_max_right v w) (ih (max v w) (max v w) (List.mem_cons_self _ _))
      · exact ih (max v w) y (List.mem_cons_of_mem _ h2)

theorem listMin_le (l : List ℚ) : ∀ y ∈ l, listMin l ≤ y := by
  cases l with
  | nil => intro y hy; simp at hy
  | cons v vs => exact foldl_min_le vs v

theorem le_listMax (l : List ℚ) : ∀ y ∈ l, y ≤ listMax l := by
  cases l with
  | nil => intro y hy; simp at hy
  | cons v vs => exact le_foldl_max vs v

theorem mul_length_le_sum (lo : ℚ) (s : List ℚ) (h : ∀ y ∈ s, lo ≤ y) :
    lo * s.length ≤ s.sum := by
  induction s with
  | nil => simp
  | cons y ys ih =>
    have hy := h y (List.mem_cons_self _ _)
    have hys := ih (fun z hz => h z (List.mem_cons_of_mem _ hz))
    rw [List.sum_cons, List.length_cons]
    push_cast
    linarith

theorem sum_le_mul_length (hi : ℚ) (s : List ℚ) (h : ∀ y ∈ s, y ≤ hi) :
    s.sum ≤ hi * s.length := by
  induction s with
  | nil => simp
  | cons y ys ih =>
    have hy := h y (List.mem_cons_self _ _)
    have hys := ih (fun z hz => h z (List.mem_cons_of_mem _ hz))
    rw [List.sum_cons, List.length_cons]
    push_cast
    linarith

/-- The mean of a nonempty list lies between any lower and upper bound of
its elements. -/
theorem mean_bounds (lo hi : ℚ) (s : List ℚ) (hne : s ≠ [])
    (hlo : ∀ y ∈ s, lo ≤ y) (hhi : ∀ y ∈ s, y ≤ hi) :
    lo ≤ s.sum / s.length ∧ s.sum / s.length ≤ hi := by
  have hpos : (0 : ℚ) < s.length := by
    have := List.length_pos.mpr hne
    exact_mod_cast this
  constructor
  · rw [le_div_iff₀ hpos]
    exact mul_length_le_sum lo s hlo
  · rw [div_le_iff₀ hpos]
    exact sum_le_mul_length hi s hhi

/-- A tree's prediction is one of its leaf values. -/
theorem predict_mem_leafVals (t : RTree) (x : ℕ → ℚ) :
    t.predict x ∈ t.leafVals := by
  induction t with
  | leaf v => simp [RTree.predict, RTree.leafVals]
  | node f thr l r ihl ihr =>
    rw [RTree.predict, RTree.leafVals]
    split_ifs
    · exact List.mem_append_left _ ihl
    · exact List.mem_append_right _ ihr

/-- A well-trained tree's prediction lies within the label bounds. -/
theorem tree_predict_bounds (labels : List ℚ) (t : RTree) (ht : WellTrained labels t)
    (x : ℕ → ℚ) :
    listMin labels ≤ t.predict x ∧ t.predict x ≤ listMax labels := by
  obtain ⟨s, hne, hsub, hval⟩ := ht (t.predict x) (predict_mem_leafVals t x)
  have := mean_bounds (listMin labels) (listMax labels) s hne
    (fun y hy => listMin_le labels y (hsub y hy))
    (fun y hy => le_listMax labels y (hsub y hy))
  rw [hval]
  exact this

/-- **C9**: a trained model's prediction on any input feature vector lies
within `[min(train labels), max(train labels)]`, for both the single-tree
variant and the forest (mean-of-trees) variant. -/
theorem c9_prediction_bounded (labels : List ℚ) (t : RTree) (ts : List RTree)
    (x : ℕ → ℚ) (ht : WellTrained labels t)
    (hts : ∀ u ∈ ts, WellTrained labels u) (hne : ts ≠ []) :
    (listMin labels ≤ RTree.predict t x ∧ RTree.predict t x ≤ listMax labels) ∧
    (listMin labels ≤ forestPredict ts x ∧ forestPredict ts x ≤ listMax labels) := by
  refine ⟨tree_predict_bounds labels t ht x, ?_⟩
  rw [forestPredict]
  have hlen : (ts.map (fun u => RTree.predict u x)).length = ts.length :=
    List.length_map _ _
  have hmne : ts.map (fun u => RTree.predict u x) ≠ [] := by
    intro hcon
    exact hne (List.map_eq_nil_iff.mp hcon)
  have hb := mean_bounds (listMin labels) (listMax labels)
    (ts.map (fun u => RTree.predict u x)) hmne
    (fun y hy => ?_) (fun y hy => ?_)
  · rw [← hlen]
    exact hb
  · obtain ⟨u, hu, rfl⟩ := List.mem_map.mp hy
    exact (tree_predict_bounds labels u (hts u hu) x).1
  · obtain ⟨u, hu, rfl⟩ := List.mem_map.mp hy
    exact (tree_predict_bounds labels u (hts u hu) x).2

/-- Witness for C9: labels `[1, 2, 3]`, the tree
`node 0 2 (leaf 1) (leaf 3)` (leaves are means of `[1]` and `[3]`), the
forest `[that tree, leaf 2]`, input `fun _ => 0`. -/
theorem c9_prediction_bounded_witness :
    (WellTrained [1, 2, 3] (RTree.node 0 2 (RTree.leaf 1) (RTree.leaf 3)) ∧
      (∀ u ∈ [RTree.node 0 2 (RTree.leaf 1) (RTree.leaf 3), RTree.leaf 2],
        WellTrained [1, 2, 3] u) ∧
      ([RTree.node 0 2 (RTree.leaf 1) (RTree.leaf 3), RTree.leaf 2] : List RTree) ≠ []) ∧
    ((listMin [1, 2, 3]
        ≤ RTree.predict (RTree.node 0 2 (RTree.leaf 1) (RTree.leaf 3)) (fun _ => 0) ∧
      RTree.predict (RTree.node 0 2 (RTree.leaf 1) (RTree.leaf 3)) (fun _ => 0)
        ≤ listMax [1, 2, 3]) ∧
    (listMin [1, 2, 3]
        ≤ forestPredict [RTree.node 0 2 (RTree.leaf 1) (RTree.leaf 3), RTree.leaf 2]
            (fun _ => 0) ∧
      forestPredict [RTree.node 0 2 (RTree.leaf 1) (RTree.leaf 3), RTree.leaf 2]
          (fun _ => 0)
        ≤ listMax [1, 2, 3])) := by
  have h1 : WellTrained [1, 2, 3] (RTree.node 0 2 (RTree.leaf 1) (RTree.leaf 3)) := by
    intro v hv
    simp only [RTree.leafVals, List.append_nil, List.cons_append, List.nil_append,
      List.mem_cons, List.not_mem_nil, or_false] at hv
    rcases hv with h | h
    · exact ⟨[1], by simp, by intro y hy; simp at hy; simp [hy], by rw [h]; norm_num⟩
    · exact ⟨[3], by simp, by intro y hy; simp at hy; simp [hy], by rw [h]; norm_num⟩
  have h2 : WellTrained [1, 2, 3] (RTree.leaf 2) := by
    intro v hv
    simp only [RTree.leafVals, List.mem_cons, List.not_mem_nil, or_false] at hv
    exact ⟨[2], by simp, by intro y hy; simp at hy; simp [hy], by rw [hv]; norm_num⟩
  have h3 : ∀ u ∈ [RTree.node 0 2 (RTree.leaf 1) (RTree.leaf 3), RTree.leaf 2],
      WellTrained [1, 2, 3] u := by
    intro u hu
    rcases List.mem_cons.mp hu with h | h
    · rw [h]; exact h1
    · rcases List.mem_cons.mp h with h4 | h4
      · rw [h4]; exact h2
      · simp at h4
  exact ⟨⟨h1, h3, by simp⟩,
    c9_prediction_bounded [1, 2, 3] (RTree.node 0 2 (RTree.leaf 1) (RTree.leaf 3))
      [RTree.node 0 2 (RTree.leaf 1) (RTree.leaf 3), RTree.leaf 2] (fun _ => 0)
      h1 h3 (by simp)⟩

/-- **C7 counterexample**: on a schema that declares the label column
`"price"` with string type, the label lands in the categorical feature list,
so the claim "the label column never appears among the features, for every
input schema" fails on the code (the code only excludes `"price"` from the
numeric list). -/
theorem c7_counterexample :
    "price" ∈ categoricalCols [("price", "string")] := by decide

/-- **C7 (amended)**: the label column `"price"` never appears among the
numeric feature columns; and provided the schema does not declare `"price"`
with string type, it does not appear among the categorical feature columns
either. -/
theorem c7_label_excluded (dtypes : Schema)
    (h : ∀ ty, ("price", ty) ∈ dtypes → ty ≠ "string") :
    "price" ∉ categoricalCols dtypes ∧ "price" ∉ numericCols dtypes := by
  constructor
  · intro hmem
    obtain ⟨ty, hty, rfl⟩ := (mem_categoricalCols dtypes "price").mp hmem
    exact h _ hty rfl
  · intro hmem
    obtain ⟨ty, hty, _, hne⟩ := (mem_numericCols dtypes "price").mp hmem
    exact hne rfl

/-- Witness for C7 (amended) at the airbnb-like schema
`[("host_is_superhost", "string"), ("price", "double"), ("bedrooms", "double")]`. -/
theorem c7_label_excluded_witness :
    (∀ ty, ("price", ty) ∈
        ([("host_is_superhost", "string"), ("price", "double"),
          ("bedrooms", "double")] : Schema) → ty ≠ "string") ∧
    ("price" ∉ categoricalCols
        [("host_is_superhost", "string"), ("price", "double"),
          ("bedrooms", "double")] ∧
      "price" ∉ numericCols
        [("host_is_superhost", "string"), ("price", "double"),
          ("bedrooms", "double")]) :=
  ⟨by
    intro ty hty
    simp only [List.mem_cons, List.not_mem_nil, or_false, Prod.mk.injEq] at hty
    rcases hty with ⟨h1, h2⟩ | ⟨h1, h2⟩ | ⟨h1, h2⟩
    · exact absurd h1 (by decide)
    · subst h2; decide
    · exact absurd h1 (by decide),
    c7_label_excluded _ (by
      intro ty hty
      simp only [List.mem_cons, List.not_mem_nil, or_false, Prod.mk.injEq] at hty
      rcases hty with ⟨h1, h2⟩ | ⟨h1, h2⟩ | ⟨h1, h2⟩
      · exact absurd h1 (by decide)
      · subst h2; decide
      · exact absurd h1 (by decide))⟩

end DatabricksNotebooks
